import Mathlib

/-!
Verification of the taskproc cache layer (`taskproc/database.py`) and the
Future/projection model (`taskproc/future.py`) against its specification.

The Python code is shallowly embedded: dictionaries and the diskcache-backed
key-value store become association lists (first match wins, mirroring dict
lookup), the filesystem becomes an association list from paths (lists of
name components) to entries, and fallible operations return `Option`.
External primitives that are not part of the repository (the Python `eval`
and `repr` builtins, and `Path.resolve`) are taken as explicit function
parameters.
-/

namespace Taskproc

/-- Association-list lookup, first match wins: models Python dict lookup and
the diskcache `Cache.get`. -/
def alookup {α β : Type} [DecidableEq α] (k : α) : List (α × β) → Option β
  | [] => none
  | (k', v) :: rest => if k' = k then some v else alookup k rest

theorem alookup_append {α β : Type} [DecidableEq α] (k : α) (l1 l2 : List (α × β)) :
    alookup k (l1 ++ l2) =
      match alookup k l1 with
      | some v => some v
      | none => alookup k l2 := by
  induction l1 with
  | nil => simp [alookup]
  | cons hd tl ih =>
    obtain ⟨k', v'⟩ := hd
    by_cases h : k' = k <;> simp [alookup, h, ih]

theorem alookup_mem {α β : Type} [DecidableEq α] {k : α} {v : β} {l : List (α × β)}
    (h : alookup k l = some v) : (k, v) ∈ l := by
  induction l with
  | nil => simp [alookup] at h
  | cons hd tl ih =>
    obtain ⟨k', v'⟩ := hd
    by_cases hk : k' = k
    · simp [alookup, hk] at h
      subst hk h
      exact List.mem_cons_self _ _
    · simp [alookup, hk] at h
      exact List.mem_cons_of_mem _ (ih h)

/-! ### IdTable (`taskproc/database.py`, class `IdTable`)

State: `table` models the persistent diskcache store (in insertion order, so
that `len(self.table)` is `table.length`); `cache` models the in-process
dict `self.cache`.  `get` mirrors `IdTable.get` line by line; `clear`
mirrors `IdTable.clear`, which clears only the persistent store and leaves
`self.cache` untouched. -/

structure IdTable where
  table : List (String × Nat)
  cache : List (String × Nat)
  deriving DecidableEq

def IdTable.empty : IdTable := ⟨[], []⟩

/-- `IdTable.get`: consult the in-process cache; on a miss, consult the
store; if absent there, assign `len(table)` and insert; finally record the
value in the in-process cache. -/
def IdTable.get (s : IdTable) (x : String) : Nat × IdTable :=
  match alookup x s.cache with
  | some out => (out, s)
  | none =>
    match alookup x s.table with
    | some value => (value, ⟨s.table, s.cache ++ [(x, value)]⟩)
    | none =>
      (s.table.length, ⟨s.table ++ [(x, s.table.length)], s.cache ++ [(x, s.table.length)]⟩)

/-- `IdTable.clear`: `self.table.clear()` only; the in-process `self.cache`
is not cleared by the source. -/
def IdTable.clear (s : IdTable) : IdTable := ⟨[], s.cache⟩

/-- Run a sequence of `get` operations, discarding the returned ids. -/
def runGets (s : IdTable) (ks : List String) : IdTable :=
  ks.foldl (fun a k => (IdTable.get a k).2) s

/-- The `cache` dict agrees with the persistent table: every cached pair is
also the stored value.  Holds in every state reachable from `empty` by
`get` operations alone. -/
def CacheConsistent (s : IdTable) : Prop :=
  ∀ p ∈ s.cache, alookup p.1 s.table = some p.2

instance (s : IdTable) : Decidable (CacheConsistent s) := by
  unfold CacheConsistent
  infer_instance

/-- Ids stored in the table are consecutive starting from `n` (so the id of
an entry equals its insertion position). -/
def idsFrom : Nat → List (String × Nat) → Prop
  | _, [] => True
  | n, (_, v) :: rest => v = n ∧ idsFrom (n + 1) rest

theorem idsFrom_append {n : Nat} {t : List (String × Nat)} (k : String)
    (h : idsFrom n t) : idsFrom n (t ++ [(k, n + t.length)]) := by
  induction t generalizing n with
  | nil => simp [idsFrom]
  | cons hd tl ih =>
    obtain ⟨k', v'⟩ := hd
    obtain ⟨hv, htl⟩ := h
    refine ⟨hv, ?_⟩
    have := ih htl
    simpa [Nat.add_assoc, Nat.add_comm 1 tl.length] using this

theorem idsFrom_lookup_ge {n : Nat} {t : List (String × Nat)} {k : String} {v : Nat}
    (h : idsFrom n t) (hl : alookup k t = some v) : n ≤ v := by
  induction t generalizing n with
  | nil => simp [alookup] at hl
  | cons hd tl ih =>
    obtain ⟨k', v'⟩ := hd
    obtain ⟨hv, htl⟩ := h
    by_cases hk : k' = k
    · simp [alookup, hk] at hl
      omega
    · simp [alookup, hk] at hl
      have := ih htl hl
      omega

theorem idsFrom_lookup_inj {n : Nat} {t : List (String × Nat)} {k1 k2 : String} {v : Nat}
    (h : idsFrom n t) (h1 : alookup k1 t = some v) (h2 : alookup k2 t = some v) :
    k1 = k2 := by
  induction t generalizing n with
  | nil => simp [alookup] at h1
  | cons hd tl ih =>
    obtain ⟨k', v'⟩ := hd
    obtain ⟨hv, htl⟩ := h
    by_cases hk1 : k' = k1 <;> by_cases hk2 : k' = k2
    · exact hk1 ▸ hk2
    · subst hk1
      simp [alookup] at h1
      simp [alookup, hk2] at h2
      have := idsFrom_lookup_ge htl h2
      omega
    · subst hk2
      simp [alookup] at h2
      simp [alookup, hk1] at h1
      have := idsFrom_lookup_ge htl h1
      omega
    · simp [alookup, hk1, hk2] at h1 h2
      exact ih htl h1 h2

theorem idsFrom_get_eq {t : List (String × Nat)} {n : Nat} (h : idsFrom n t) :
    ∀ i (hi : i < t.length), (t.get ⟨i, hi⟩).2 = n + i := by
  induction t generalizing n with
  | nil => intro i hi; simp at hi
  | cons hd tl ih =>
    obtain ⟨k', v'⟩ := hd
    obtain ⟨hv, htl⟩ := h
    intro i hi
    cases i with
    | zero => simpa using hv
    | succ j =>
      have := ih htl j (by simpa using Nat.lt_of_succ_lt_succ hi)
      simpa [List.get, Nat.add_assoc, Nat.add_comm 1 j] using this

/-- Invariant of states reachable from `empty` by `get` operations only. -/
def Inv (s : IdTable) : Prop :=
  idsFrom 0 s.table ∧ CacheConsistent s

theorem Inv_empty : Inv IdTable.empty := by
  constructor
  · trivial
  · intro p hp; simp [IdTable.empty] at hp

theorem cacheConsistent_lookup {s : IdTable} (h : CacheConsistent s) {k : String} {v : Nat}
    (hl : alookup k s.cache = some v) : alookup k s.table = some v :=
  h (k, v) (alookup_mem hl)

theorem Inv_get {s : IdTable} (h : Inv s) (x : String) : Inv (s.get x).2 := by
  obtain ⟨hids, hcc⟩ := h
  unfold IdTable.get
  cases hc : alookup x s.cache with
  | some out => exact ⟨hids, hcc⟩
  | none =>
    cases ht : alookup x s.table with
    | some value =>
      refine ⟨hids, ?_⟩
      intro p hp
      simp only [List.mem_append, List.mem_singleton] at hp
      rcases hp with hp | hp
      · exact hcc p hp
      · subst hp; exact ht
    | none =>
      constructor
      · simpa using idsFrom_append x hids
      · intro p hp
        simp only [List.mem_append, List.mem_singleton] at hp
        rcases hp with hp | hp
        · have := hcc p hp
          rw [alookup_append, this]
        · subst hp
          rw [alookup_append, ht]
          simp [alookup]

theorem get_table_lookup_preserved {s : IdTable} {k : String} {v : Nat}
    (h : alookup k s.table = some v) (x : String) :
    alookup k ((s.get x).2).table = some v := by
  unfold IdTable.get
  cases hc : alookup x s.cache with
  | some out => exact h
  | none =>
    cases ht : alookup x s.table with
    | some value => exact h
    | none =>
      simp only
      rw [alookup_append, h]

theorem get_self_lookup_some {s : IdTable} (h : Inv s) (x : String) :
    ∃ v, alookup x ((s.get x).2).table = some v := by
  obtain ⟨hids, hcc⟩ := h
  unfold IdTable.get
  cases hc : alookup x s.cache with
  | some out => exact ⟨out, cacheConsistent_lookup hcc hc⟩
  | none =>
    cases ht : alookup x s.table with
    | some value => exact ⟨value, ht⟩
    | none =>
      refine ⟨s.table.length, ?_⟩
      simp only
      rw [alookup_append, ht]
      simp [alookup]

theorem Inv_runGets {s : IdTable} (h : Inv s) (ks : List String) : Inv (runGets s ks) := by
  induction ks generalizing s with
  | nil => exact h
  | cons k ks ih => exact ih (Inv_get h k)

theorem runGets_table_lookup_preserved {s : IdTable} {k : String} {v : Nat}
    (h : alookup k s.table = some v) (ks : List String) :
    alookup k (runGets s ks).table = some v := by
  induction ks generalizing s with
  | nil => exact h
  | cons k' ks ih => exact ih (get_table_lookup_preserved h k')

theorem runGets_mem_lookup_some {s : IdTable} (h : Inv s) {k : String} {ks : List String}
    (hk : k ∈ ks) : ∃ v, alookup k (runGets s ks).table = some v := by
  induction ks generalizing s with
  | nil => simp at hk
  | cons k' ks ih =>
    rcases List.mem_cons.mp hk with hk | hk
    · subst hk
      obtain ⟨v, hv⟩ := get_self_lookup_some h k
      exact ⟨v, runGets_table_lookup_preserved hv ks⟩
    · exact ih (Inv_get h k') hk

/-! ### Futures and projections (`taskproc/future.py`)

A non-projection `Future` is abstracted as `base res ref`: `res` is what its
own `get_task_result` returns (`none` models an exception) and `ref` the
JSON dict its own `to_json` returns.  `mapped` is `MappedFuture(task, key)`.
Keys are the JSON-literal keys admitted by `FutureMapperMixin.__getitem__`
(the `float` case is omitted).  Indexing a result value models Python
`out[k]` on a sequence (with negative wrap-around) or a mapping, `none`
standing for the raised `IndexError`/`KeyError`/`TypeError`. -/

inductive JsonKey where
  | int (n : Int)
  | str (s : String)
  | bool (b : Bool)
  | null
  deriving DecidableEq

inductive JsonVal where
  | null
  | bool (b : Bool)
  | num (n : Int)
  | str (s : String)
  | arr (xs : List JsonVal)
  | obj (fields : List (JsonKey × JsonVal))

def JsonVal.index : JsonVal → JsonKey → Option JsonVal
  | .arr xs, .int n =>
      if 0 ≤ n then xs[n.toNat]?
      else if n + xs.length < 0 then none
      else xs[(n + (xs.length : Int)).toNat]?
  | .obj fields, k => alookup k fields
  | _, _ => none

inductive FutureV where
  | base (res : Option JsonVal) (ref : List (String × JsonVal))
  | mapped (task : FutureV) (key : JsonKey)

/-- `MappedFuture.get_origin`: unwrap nested projections down to the first
non-projection future (and the identity on non-projections, as in §4.E of
the spec). -/
def FutureV.get_origin : FutureV → FutureV
  | .base r j => .base r j
  | .mapped t _ => FutureV.get_origin t

/-- The keys of a projection chain, innermost last (the loop in
`MappedFuture.get_args` before the final reversal). -/
def FutureV.get_args_rev : FutureV → List JsonKey
  | .base _ _ => []
  | .mapped t k => k :: FutureV.get_args_rev t

/-- `MappedFuture.get_args`: the projection path in application order
(`out[::-1]`). -/
def FutureV.get_args (f : FutureV) : List JsonKey :=
  (FutureV.get_args_rev f).reverse

/-- The `get_task_result` of a non-projection future. -/
def FutureV.base_result : FutureV → Option JsonVal
  | .base r _ => r
  | .mapped _ _ => none

/-- The `to_json` of a non-projection future. -/
def FutureV.base_ref : FutureV → List (String × JsonVal)
  | .base _ j => j
  | .mapped _ _ => []

/-- Fold `out = out[k]` over a key path, starting from an optional value. -/
def pathIndex (o : Option JsonVal) (ks : List JsonKey) : Option JsonVal :=
  ks.foldl (fun a k => a.bind (fun v => JsonVal.index v k)) o

/-- `get_task_result`: a base future returns its own result; a
`MappedFuture` takes its origin's result and indexes along `get_args`. -/
def FutureV.get_task_result : FutureV → Option JsonVal
  | .base r _ => r
  | .mapped t k =>
      pathIndex (FutureV.base_result (FutureV.get_origin (.mapped t k)))
        (FutureV.get_args (.mapped t k))

/-- Python dict assignment `d[k] = v`: replace in place if the key is
present, else append. -/
def setKey (d : List (String × JsonVal)) (k : String) (v : JsonVal) :
    List (String × JsonVal) :=
  match d with
  | [] => [(k, v)]
  | (k', v') :: rest => if k' = k then (k, v) :: rest else (k', v') :: setKey rest k v

def key_to_json : JsonKey → JsonVal
  | .int n => .num n
  | .str s => .str s
  | .bool b => .bool b
  | .null => .null

/-- `to_json`: a base future emits its own reference dict; a `MappedFuture`
emits its origin's dict with `__key__` set to the projection path. -/
def FutureV.to_json : FutureV → List (String × JsonVal)
  | .base _ j => j
  | .mapped t k =>
      setKey (FutureV.base_ref (FutureV.get_origin (.mapped t k))) "__key__"
        (.arr ((FutureV.get_args (.mapped t k)).map key_to_json))

/-- The `__getitem__` chain `f[k1]...[kn]`. -/
def applyKeys (f : FutureV) (ks : List JsonKey) : FutureV :=
  ks.foldl (fun a k => .mapped a k) f

theorem get_origin_applyKeys (f : FutureV) (ks : List JsonKey) :
    FutureV.get_origin (applyKeys f ks) = FutureV.get_origin f := by
  induction ks generalizing f with
  | nil => rfl
  | cons k ks ih =>
    show FutureV.get_origin (applyKeys (.mapped f k) ks) = _
    rw [ih]
    rfl

theorem get_args_rev_applyKeys (f : FutureV) (ks : List JsonKey) :
    FutureV.get_args_rev (applyKeys f ks) = ks.reverse ++ FutureV.get_args_rev f := by
  induction ks generalizing f with
  | nil => rfl
  | cons k ks ih =>
    show FutureV.get_args_rev (applyKeys (.mapped f k) ks) = _
    rw [ih]
    simp [FutureV.get_args_rev]

theorem get_args_applyKeys (f : FutureV) (ks : List JsonKey) :
    FutureV.get_args (applyKeys f ks) = FutureV.get_args f ++ ks := by
  unfold FutureV.get_args
  rw [get_args_rev_applyKeys]
  simp

theorem pathIndex_append (o : Option JsonVal) (l1 l2 : List JsonKey) :
    pathIndex o (l1 ++ l2) = pathIndex (pathIndex o l1) l2 := by
  simp [pathIndex, List.foldl_append]

theorem exists_mapped_applyKeys (f : FutureV) (ks : List JsonKey) (h : ks ≠ []) :
    ∃ t k, applyKeys f ks = .mapped t k := by
  cases ks with
  | nil => exact absurd rfl h
  | cons k ks' =>
    clear h
    induction ks' generalizing f k with
    | nil => exact ⟨f, k, rfl⟩
    | cons k2 ks2 ih => exact ih (.mapped f k) k2

theorem get_task_result_applyKeys (f : FutureV) (ks : List JsonKey) :
    FutureV.get_task_result (applyKeys f ks) = pathIndex (FutureV.get_task_result f) ks := by
  cases hks : ks with
  | nil => simp [applyKeys, pathIndex]
  | cons k ks' =>
    obtain ⟨t, k', heq⟩ := exists_mapped_applyKeys f (k :: ks') (by simp)
    rw [heq]
    show pathIndex (FutureV.base_result (FutureV.get_origin (.mapped t k')))
      (FutureV.get_args (.mapped t k')) = _
    rw [← heq, get_origin_applyKeys, get_args_applyKeys, pathIndex_append]
    congr 1
    cases f with
    | base r j =>
      simp [FutureV.get_origin, FutureV.base_result, FutureV.get_args,
        FutureV.get_args_rev, FutureV.get_task_result, pathIndex]
    | mapped t2 k2 => rfl

/-! ### Const (`taskproc/future.py`, class `Const` and `_check_if_literal`)

The Python builtins `eval`/`repr` are external to the repository; their
round trip `eval(repr(x), \x7b\x7d, \x7b\x7d)` is abstracted as an explicit
function `evalRepr`, with `none` modelling a raised exception. -/

structure Const (α : Type) where
  value : α
  deriving DecidableEq

/-- `_check_if_literal`: `False` if `eval(repr(x))` raises, else `x == xx`. -/
def check_if_literal {α : Type} [DecidableEq α] (evalRepr : α → Option α) (x : α) : Bool :=
  match evalRepr x with
  | none => false
  | some xx => decide (x = xx)

/-- Constructing `Const(v)`: the `__post_init__` assertion fails (returns
`none`) unless the value is literal-safe. -/
def mkConst {α : Type} [DecidableEq α] (evalRepr : α → Option α) (v : α) : Option (Const α) :=
  if check_if_literal evalRepr v then some ⟨v⟩ else none

def Const.run_task {α : Type} (c : Const α) : α := c.value

def Const.get_task_result {α : Type} (c : Const α) : α := c.value

/-! ### Filesystem model

Paths are lists of name components.  The filesystem is an association list
from paths to entries, first match wins; writing is modelled by prepending
(the new entry shadows any old one), `shutil.rmtree` by filtering out every
entry whose path has the removed path as a prefix.  Files carry their
content and an mtime.  `Path.resolve` is an external primitive and is taken
as a function parameter where needed. -/

abbrev FsPath := List String

inductive FSEntry where
  | file (content : String) (mtime : Nat)
  | dir
  | symlink (target : FsPath)
  deriving DecidableEq

abbrev FS := List (FsPath × FSEntry)

def fsLookup (fs : FS) (p : FsPath) : Option FSEntry := alookup p fs

def pathExists (fs : FS) (p : FsPath) : Bool := (fsLookup fs p).isSome

/-- Create or overwrite the entry at `p`. -/
def fsSet (fs : FS) (p : FsPath) (e : FSEntry) : FS := (p, e) :: fs

/-- Is `p` a prefix of `q` (so removing the tree at `p` removes `q`)? -/
def pathPref : FsPath → FsPath → Bool
  | [], _ => true
  | _ :: _, [] => false
  | a :: as, b :: bs => if a = b then pathPref as bs else false

/-- `shutil.rmtree p`: drop every entry at or below `p`. -/
def rmtree : FS → FsPath → FS
  | [], _ => []
  | (q, e) :: rest, p => if pathPref p q then rmtree rest p else (q, e) :: rmtree rest p

theorem fsLookup_fsSet_self (fs : FS) (p : FsPath) (e : FSEntry) :
    fsLookup (fsSet fs p e) p = some e := by
  simp [fsLookup, fsSet, alookup]

theorem fsLookup_fsSet_ne {q p : FsPath} (fs : FS) (e : FSEntry) (h : q ≠ p) :
    fsLookup (fsSet fs p e) q = fsLookup fs q := by
  simp [fsLookup, fsSet, alookup, Ne.symm h]

theorem pathPref_cancel (c l1 l2 : FsPath) :
    pathPref (c ++ l1) (c ++ l2) = pathPref l1 l2 := by
  induction c with
  | nil => rfl
  | cons a c ih => simp [pathPref, ih]

theorem pathPref_refl (p : FsPath) : pathPref p p = true := by
  induction p with
  | nil => rfl
  | cons a p ih => simp [pathPref, ih]

theorem pathPref_append (p q : FsPath) : pathPref p (p ++ q) = true := by
  induction p with
  | nil => rfl
  | cons a p ih => simp [pathPref, ih]

theorem pathPref_trans {p q r : FsPath} (h1 : pathPref p q = true)
    (h2 : pathPref q r = true) : pathPref p r = true := by
  induction p generalizing q r with
  | nil => rfl
  | cons a p ih =>
    cases q with
    | nil => simp [pathPref] at h1
    | cons b q =>
      cases r with
      | nil => simp [pathPref] at h2
      | cons c r =>
        by_cases hab : a = b
        · subst hab
          simp [pathPref] at h1
          by_cases hac : a = c
          · subst hac
            simp [pathPref] at h2 ⊢
            exact ih h1 h2
          · simp [pathPref, hac] at h2
        · simp [pathPref, hab] at h1

theorem fsLookup_rmtree_of_pref {p q : FsPath} (fs : FS) (h : pathPref p q = true) :
    fsLookup (rmtree fs p) q = none := by
  induction fs with
  | nil => rfl
  | cons hd rest ih =>
    obtain ⟨q', e'⟩ := hd
    rw [rmtree]
    by_cases hq : pathPref p q'
    · rw [if_pos hq]
      exact ih
    · rw [if_neg hq]
      have hne : q' ≠ q := by
        intro he
        rw [he] at hq
        exact hq h
      simpa [fsLookup, alookup, hne] using ih

theorem fsLookup_rmtree_of_not_pref {p q : FsPath} (fs : FS) (h : pathPref p q = false) :
    fsLookup (rmtree fs p) q = fsLookup fs q := by
  induction fs with
  | nil => rfl
  | cons hd rest ih =>
    obtain ⟨q', e'⟩ := hd
    rw [rmtree]
    by_cases hq : pathPref p q'
    · rw [if_pos hq, ih]
      have hne : q' ≠ q := by
        intro he
        rw [he, h] at hq
        cases hq
      simp [fsLookup, alookup, hne]
    · rw [if_neg hq]
      by_cases he : q' = q
      · subst he
        simp [fsLookup, alookup]
      · simpa [fsLookup, alookup, he] using ih

theorem append_singleton_ne (l : FsPath) (a : String) : l ≠ l ++ [a] := by
  intro h
  have := congrArg List.length h
  simp at this

theorem append_singleton_inj {l : FsPath} {a b : String} (h : l ++ [a] = l ++ [b]) :
    a = b := by
  induction l with
  | nil => simpa using h
  | cons c l ih =>
    simp only [List.cons_append, List.cons.injEq] at h
    exact ih h.2

theorem append_len_ne {l : FsPath} {a b c : String} : l ++ [a] ≠ l ++ [b, c] := by
  intro h
  have := congrArg List.length h
  simp at this

theorem base_ne_append_two {l : FsPath} {b c : String} : l ≠ l ++ [b, c] := by
  intro h
  have := congrArg List.length h
  simp at this

/-! ### InstanceDirectory (`taskproc/database.py`, class `InstanceDirectory`)

Paths mirror the `path`/`args_path`/`result_path`/... properties; the
directory state for `(base_path, task_id)` lives under
`base_path / str(task_id)`. -/

def instPath (base_path : FsPath) (task_id : Nat) : FsPath := base_path ++ [toString task_id]

def args_path (b : FsPath) (i : Nat) : FsPath := instPath b i ++ ["args.json"]

def result_path (b : FsPath) (i : Nat) : FsPath := instPath b i ++ ["result.pkl.gz"]

def stdout_path (b : FsPath) (i : Nat) : FsPath := instPath b i ++ ["stdout.txt"]

def stderr_path (b : FsPath) (i : Nat) : FsPath := instPath b i ++ ["stderr.txt"]

def data_dir (b : FsPath) (i : Nat) : FsPath := instPath b i ++ ["data"]

def deps_dir (b : FsPath) (i : Nat) : FsPath := instPath b i ++ ["deps"]

/-- The guard opening `InstanceDirectory.initialize`: if the instance path
exists, `shutil.rmtree` it. -/
def cleanupInstancePath (fs : FS) (b : FsPath) (i : Nat) : FS :=
  if pathExists fs (instPath b i) then rmtree fs (instPath b i) else fs

/-- `InstanceDirectory.initialize`: recreate `path/`, write `args.json`,
create `data/` and `deps/`, then either one symlink per dependency (in
order) or the `__NO_DEPENDENCIES__` sentinel. -/
def initDir (resolve : FsPath → FsPath) (now : Nat) (fs : FS) (b : FsPath) (i : Nat)
    (argkey : String) (deps : List (String × FsPath)) : FS :=
  let fs1 := cleanupInstancePath fs b i
  let fs2 := fsSet fs1 (instPath b i) .dir
  let fs3 := fsSet fs2 (args_path b i) (.file argkey now)
  let fs4 := fsSet fs3 (data_dir b i) .dir
  let fs5 := fsSet fs4 (deps_dir b i) .dir
  match deps with
  | [] => fsSet fs5 (deps_dir b i ++ ["__NO_DEPENDENCIES__"]) (.file "" now)
  | _ :: _ =>
      deps.foldl (fun acc nt => fsSet acc (deps_dir b i ++ [nt.1]) (.symlink (resolve nt.2))) fs5

/-- `InstanceDirectory.__init__`: construct the handle and initialize the
on-disk state only if the instance path does not yet exist. -/
def mkInstanceDirectory (resolve : FsPath → FsPath) (now : Nat) (fs : FS) (b : FsPath)
    (i : Nat) (argkey : String) (deps : List (String × FsPath)) : FS :=
  if pathExists fs (instPath b i) then fs else initDir resolve now fs b i argkey deps

/-- `InstanceDirectory.save_result`: write the serialized result bytes to
`result_path`. -/
def save_result (fs : FS) (b : FsPath) (i : Nat) (content : String) (now : Nat) : FS :=
  fsSet fs (result_path b i) (.file content now)

/-- `InstanceDirectory.load_result`: read the bytes back from
`result_path` (`none` models the raised error when absent). -/
def load_result (fs : FS) (b : FsPath) (i : Nat) : Option String :=
  match fsLookup fs (result_path b i) with
  | some (.file c _) => some c
  | _ => none

/-- The paths `initialize` (re)creates under the instance path. -/
def created_paths (b : FsPath) (i : Nat) (deps : List (String × FsPath)) : List FsPath :=
  [instPath b i, args_path b i, data_dir b i, deps_dir b i] ++
    (match deps with
     | [] => [deps_dir b i ++ ["__NO_DEPENDENCIES__"]]
     | _ :: _ => deps.map (fun nt => deps_dir b i ++ [nt.1]))

/-! ### Database (`taskproc/database.py`, class `Database`) -/

structure Database where
  base_path : FsPath
  id_table : IdTable
  fs : FS

def Database.results_directory (d : Database) : FsPath := d.base_path ++ ["results"]

def Database.source_path (d : Database) : FsPath := d.base_path ++ ["source.txt"]

/-- `Database.clear`: clear the id table, remove `results/` recursively if
present, recreate an empty `results/`. -/
def Database.clear (d : Database) : Database :=
  ⟨d.base_path,
   d.id_table.clear,
   fsSet
     (if pathExists d.fs d.results_directory then rmtree d.fs d.results_directory else d.fs)
     d.results_directory FSEntry.dir⟩

/-! Supporting lemmas for `initialize`. -/

theorem cleanup_lookup_none {fs : FS} {b : FsPath} {i : Nat}
    (hclean : pathExists fs (instPath b i) = true
      ∨ ∀ q, pathPref (instPath b i) q = true → fsLookup fs q = none)
    {q : FsPath} (hq : pathPref (instPath b i) q = true) :
    fsLookup (cleanupInstancePath fs b i) q = none := by
  unfold cleanupInstancePath
  by_cases he : pathExists fs (instPath b i)
  · rw [if_pos he]
    exact fsLookup_rmtree_of_pref fs hq
  · rw [if_neg he]
    rcases hclean with hclean | hclean
    · exact absurd hclean he
    · exact hclean q hq

theorem foldDeps_frame (resolve : FsPath → FsPath) (b : FsPath) (i : Nat)
    (deps : List (String × FsPath)) (acc : FS) {q : FsPath}
    (hq : q ∉ deps.map (fun nt => deps_dir b i ++ [nt.1])) :
    fsLookup
      (deps.foldl (fun acc nt => fsSet acc (deps_dir b i ++ [nt.1]) (.symlink (resolve nt.2)))
        acc) q = fsLookup acc q := by
  induction deps generalizing acc with
  | nil => rfl
  | cons d ds ih =>
    simp only [List.map_cons, List.mem_cons, not_or] at hq
    rw [List.foldl_cons, ih _ hq.2, fsLookup_fsSet_ne _ _ hq.1]

theorem foldDeps_mem (resolve : FsPath → FsPath) (b : FsPath) (i : Nat)
    {deps : List (String × FsPath)} (hnames : (deps.map Prod.fst).Nodup) (acc : FS)
    {n : String} {t : FsPath} (hmem : (n, t) ∈ deps) :
    fsLookup
      (deps.foldl (fun acc nt => fsSet acc (deps_dir b i ++ [nt.1]) (.symlink (resolve nt.2)))
        acc) (deps_dir b i ++ [n]) = some (.symlink (resolve t)) := by
  induction deps generalizing acc with
  | nil => simp at hmem
  | cons d ds ih =>
    obtain ⟨dn, dt⟩ := d
    simp only [List.map_cons, List.nodup_cons] at hnames
    rw [List.foldl_cons]
    rcases List.mem_cons.mp hmem with hmem | hmem
    · simp only [Prod.mk.injEq] at hmem
      obtain ⟨rfl, rfl⟩ := hmem
      have hnotin : deps_dir b i ++ [n] ∉ ds.map (fun nt => deps_dir b i ++ [nt.1]) := by
        intro hin
        obtain ⟨nt, hnt, heq⟩ := List.mem_map.mp hin
        have h1 := List.mem_map_of_mem Prod.fst hnt
        rw [append_singleton_inj heq] at h1
        exact hnames.1 h1
      rw [foldDeps_frame resolve b i ds _ hnotin]
      exact fsLookup_fsSet_self _ _ _
    · exact ih hnames.2 _ hmem

theorem foldDeps_lookup_cases (resolve : FsPath → FsPath) (b : FsPath) (i : Nat)
    (deps : List (String × FsPath)) (acc : FS) (q : FsPath) :
    fsLookup
      (deps.foldl (fun acc nt => fsSet acc (deps_dir b i ++ [nt.1]) (.symlink (resolve nt.2)))
        acc) q = fsLookup acc q
    ∨ ∃ t, fsLookup
        (deps.foldl (fun acc nt => fsSet acc (deps_dir b i ++ [nt.1]) (.symlink (resolve nt.2)))
          acc) q = some (.symlink t) := by
  induction deps generalizing acc with
  | nil => exact Or.inl rfl
  | cons d ds ih =>
    rw [List.foldl_cons]
    rcases ih (fsSet acc (deps_dir b i ++ [d.1]) (.symlink (resolve d.2))) with h | h
    · by_cases hq : q = deps_dir b i ++ [d.1]
      · subst hq
        rw [h, fsLookup_fsSet_self]
        exact Or.inr ⟨resolve d.2, rfl⟩
      · rw [h, fsLookup_fsSet_ne _ _ hq]
        exact Or.inl rfl
    · exact Or.inr h

theorem ne_of_length_ne {l1 l2 : FsPath} (h : l1.length ≠ l2.length) : l1 ≠ l2 :=
  fun he => h (congrArg List.length he)

theorem append_singleton_ne_of_ne {a b : String} (l : FsPath) (h : a ≠ b) :
    l ++ [a] ≠ l ++ [b] :=
  fun he => h (append_singleton_inj he)

/-- The directory skeleton `initialize` creates before handling
dependencies: `path/`, `args.json`, `data/`, `deps/`. -/
def coreFS (now : Nat) (fs : FS) (b : FsPath) (i : Nat) (argkey : String) : FS :=
  fsSet (fsSet (fsSet (fsSet (cleanupInstancePath fs b i) (instPath b i) .dir)
    (args_path b i) (.file argkey now)) (data_dir b i) .dir) (deps_dir b i) .dir

theorem initDir_nil (resolve : FsPath → FsPath) (now : Nat) (fs : FS) (b : FsPath) (i : Nat)
    (argkey : String) :
    initDir resolve now fs b i argkey [] =
      fsSet (coreFS now fs b i argkey) (deps_dir b i ++ ["__NO_DEPENDENCIES__"])
        (.file "" now) := rfl

theorem initDir_cons (resolve : FsPath → FsPath) (now : Nat) (fs : FS) (b : FsPath) (i : Nat)
    (argkey : String) (d : String × FsPath) (ds : List (String × FsPath)) :
    initDir resolve now fs b i argkey (d :: ds) =
      (d :: ds).foldl
        (fun acc nt => fsSet acc (deps_dir b i ++ [nt.1]) (.symlink (resolve nt.2)))
        (coreFS now fs b i argkey) := rfl

theorem coreFS_lookup (now : Nat) (fs : FS) (b : FsPath) (i : Nat) (argkey : String)
    (hclean : pathExists fs (instPath b i) = true
      ∨ ∀ q, pathPref (instPath b i) q = true → fsLookup fs q = none) :
    fsLookup (coreFS now fs b i argkey) (instPath b i) = some .dir
    ∧ fsLookup (coreFS now fs b i argkey) (args_path b i) = some (.file argkey now)
    ∧ fsLookup (coreFS now fs b i argkey) (data_dir b i) = some .dir
    ∧ fsLookup (coreFS now fs b i argkey) (deps_dir b i) = some .dir
    ∧ ∀ q, pathPref (instPath b i) q = true → q ≠ instPath b i → q ≠ args_path b i →
        q ≠ data_dir b i → q ≠ deps_dir b i → fsLookup (coreFS now fs b i argkey) q = none := by
  have h_p_args : instPath b i ≠ args_path b i := append_singleton_ne _ _
  have h_p_data : instPath b i ≠ data_dir b i := append_singleton_ne _ _
  have h_p_deps : instPath b i ≠ deps_dir b i := append_singleton_ne _ _
  have h_args_data : args_path b i ≠ data_dir b i := append_singleton_ne_of_ne _ (by decide)
  have h_args_deps : args_path b i ≠ deps_dir b i := append_singleton_ne_of_ne _ (by decide)
  have h_data_deps : data_dir b i ≠ deps_dir b i := append_singleton_ne_of_ne _ (by decide)
  refine ⟨?_, ?_, ?_, ?_, ?_⟩
  · rw [coreFS, fsLookup_fsSet_ne _ _ h_p_deps, fsLookup_fsSet_ne _ _ h_p_data,
      fsLookup_fsSet_ne _ _ h_p_args, fsLookup_fsSet_self]
  · rw [coreFS, fsLookup_fsSet_ne _ _ h_args_deps, fsLookup_fsSet_ne _ _ h_args_data,
      fsLookup_fsSet_self]
  · rw [coreFS, fsLookup_fsSet_ne _ _ h_data_deps, fsLookup_fsSet_self]
  · rw [coreFS, fsLookup_fsSet_self]
  · intro q hq hne1 hne2 hne3 hne4
    rw [coreFS, fsLookup_fsSet_ne _ _ hne4, fsLookup_fsSet_ne _ _ hne3,
      fsLookup_fsSet_ne _ _ hne2, fsLookup_fsSet_ne _ _ hne1]
    exact cleanup_lookup_none hclean hq

theorem length_instPath (b : FsPath) (i : Nat) : (instPath b i).length = b.length + 1 := by
  simp [instPath]

theorem length_deps_sub (b : FsPath) (i : Nat) (x : String) :
    (deps_dir b i ++ [x]).length = b.length + 3 := by
  simp [deps_dir, instPath]

theorem pathPref_deps_sub (b : FsPath) (i : Nat) (x : String) :
    pathPref (instPath b i) (deps_dir b i ++ [x]) = true := by
  rw [deps_dir, List.append_assoc]
  exact pathPref_append _ _

/-! ## Claim theorems -/

/-- C1 (counterexample): the claim fails as stated.  Across the sequence
`get "a"; clear(); get "b"`, the two distinct keys `"a"` and `"b"` receive
the same id `0`: id assignment is not injective, and an assigned id is
reused for a different key, once a `clear` occurs in the sequence. -/
theorem idtable_clear_id_reuse_counterexample :
    (IdTable.empty.get "a").1 = 0
    ∧ (((IdTable.empty.get "a").2.clear).get "b").1 = 0
    ∧ "a" ≠ "b" := by decide

/-- C1 (amended): across every sequence of `get` operations (with no
intervening `clear`) from a fresh table, id assignment is injective (two
queried keys hold equal ids iff they are equal), ids equal their assignment
position (hence are monotone-non-decreasing in assignment order), and an
assigned id is stable: any further `get` sequence leaves it unchanged. -/
theorem idtable_get_injective_monotone_stable (ks ks' : List String) (k1 k2 : String)
    (h1 : k1 ∈ ks) (h2 : k2 ∈ ks) :
    (alookup k1 (runGets IdTable.empty ks).table
        = alookup k2 (runGets IdTable.empty ks).table ↔ k1 = k2)
    ∧ (∀ i (hi : i < (runGets IdTable.empty ks).table.length),
        ((runGets IdTable.empty ks).table.get ⟨i, hi⟩).2 = i)
    ∧ alookup k1 (runGets (runGets IdTable.empty ks) ks').table
        = alookup k1 (runGets IdTable.empty ks).table := by
  have hInv := Inv_runGets Inv_empty ks
  obtain ⟨v1, hv1⟩ := runGets_mem_lookup_some Inv_empty h1
  obtain ⟨v2, hv2⟩ := runGets_mem_lookup_some Inv_empty h2
  refine ⟨⟨fun heq => ?_, fun heq => by rw [heq]⟩, fun i hi => ?_, ?_⟩
  · rw [hv1, hv2] at heq
    obtain rfl : v1 = v2 := Option.some.injEq v1 v2 ▸ heq
    exact idsFrom_lookup_inj hInv.1 hv1 hv2
  · simpa using idsFrom_get_eq hInv.1 i hi
  · rw [runGets_table_lookup_preserved hv1 ks', hv1]

/-- C1 witness: the amended theorem applied to the concrete run
`get "a"; get "b"` followed by `get "c"`. -/
theorem idtable_get_injective_monotone_stable_witness :
    (alookup "a" (runGets IdTable.empty ["a", "b"]).table
        = alookup "b" (runGets IdTable.empty ["a", "b"]).table ↔ ("a" : String) = "b")
    ∧ (∀ i (hi : i < (runGets IdTable.empty ["a", "b"]).table.length),
        ((runGets IdTable.empty ["a", "b"]).table.get ⟨i, hi⟩).2 = i)
    ∧ alookup "a" (runGets (runGets IdTable.empty ["a", "b"]) ["c"]).table
        = alookup "a" (runGets IdTable.empty ["a", "b"]).table :=
  idtable_get_injective_monotone_stable ["a", "b"] ["c"] "a" "b" (by decide) (by decide)

/-- C2: evaluation at the failing input.  After `get "a"; get "b"; clear()`
the persistent table is empty but the in-process cache still holds both
keys, contrary to the claim that the cache is also cleared; the subsequent
`get "b"` returns the remembered id `1` (a fresh assignment would return
`0`) and does not re-insert the key into the table. -/
theorem idtable_clear_keeps_cache_eval :
    ((((IdTable.empty.get "a").2.get "b").2.clear).table = []
    ∧ (((IdTable.empty.get "a").2.get "b").2.clear).cache = [("a", 0), ("b", 1)])
    ∧ (((((IdTable.empty.get "a").2.get "b").2.clear).get "b").1 = 1
    ∧ alookup "b" ((((IdTable.empty.get "a").2.get "b").2.clear).get "b").2.table
        = none) := by decide

/-- C3: `IdTable.get` returns the stored id when the key is present in the
table; when absent it assigns `len(table)`, appends the pair and returns
the new id; and two consecutive `get`s of the same key agree.  The
hypothesis states that the in-process cache agrees with the table, which
holds in every state reachable by `get` operations (`Inv_runGets`); it
rules out the stale-cache states produced by `clear` (see C2). -/
theorem idtable_get_spec (s : IdTable) (x : String) (hcc : CacheConsistent s) :
    (∀ v, alookup x s.table = some v → (s.get x).1 = v)
    ∧ (alookup x s.table = none →
        (s.get x).1 = s.table.length
        ∧ ((s.get x).2).table = s.table ++ [(x, s.table.length)])
    ∧ (((s.get x).2).get x).1 = (s.get x).1 := by
  unfold IdTable.get
  cases hc : alookup x s.cache with
  | some out =>
    have ht := cacheConsistent_lookup hcc hc
    refine ⟨fun v hv => ?_, fun hv => ?_, ?_⟩
    · rw [ht] at hv
      exact (Option.some.injEq out v).mp hv
    · rw [ht] at hv
      cases hv
    · simp [IdTable.get, hc]
  | none =>
    cases ht : alookup x s.table with
    | some value =>
      refine ⟨fun v hv => ?_, fun hv => ?_, ?_⟩
      · simp only [Option.some.injEq] at hv
        subst hv
        rfl
      · simp at hv
      · simp only [IdTable.get, alookup_append, hc, alookup]
        simp
    | none =>
      refine ⟨fun v hv => ?_, fun _ => ⟨rfl, rfl⟩, ?_⟩
      · simp at hv
      · simp only [IdTable.get, alookup_append, hc, alookup]
        simp

/-- C3 witness: with the table holding only `"a" ↦ 0`, a `get` of the
absent key `"b"` assigns the current size `1` and appends the pair. -/
theorem idtable_get_spec_witness :
    ((runGets IdTable.empty ["a"]).get "b").1 = 1
    ∧ (((runGets IdTable.empty ["a"]).get "b").2).table = [("a", 0), ("b", 1)] := by
  have h := (idtable_get_spec (runGets IdTable.empty ["a"]) "b" (by decide)).2.1 (by decide)
  exact ⟨by rw [h.1]; rfl, by rw [h.2]; rfl⟩

/-- C4: projection transparency.  For every future `f` and JSON-literal
keys `k1...kn` under which the nested indexing of `f`'s result is defined,
the chain `f[k1]...[kn].get_task_result()` equals
`f.get_task_result()[k1]...[kn]`, keys applied left to right. -/
theorem projection_transparency (f : FutureV) (ks : List JsonKey) (v : JsonVal)
    (h : pathIndex (FutureV.get_task_result f) ks = some v) :
    FutureV.get_task_result (applyKeys f ks) = some v := by
  rw [get_task_result_applyKeys]
  exact h

/-- C4 witness: projecting `\x7b"hello": ["world", "42"]\x7d` through the
path `["hello"][1]` (the S5 scenario of the spec). -/
theorem projection_transparency_witness :
    FutureV.get_task_result
      (applyKeys
        (.base (some (.obj [(.str "hello", .arr [.str "world", .str "42"])])) [])
        [.str "hello", .int 1]) = some (.str "42") :=
  projection_transparency
    (.base (some (.obj [(.str "hello", .arr [.str "world", .str "42"])])) [])
    [.str "hello", .int 1] (.str "42") rfl

/-- C5: projection chains collapse to their origin.  For a non-projection
future `f = base r j` and a non-empty key path, the origin of
`f[k1]...[kn]` is `f` itself, and its `to_json` is `f`'s own reference
dict with the single additional top-level `__key__` field holding the full
path in application order (no nested projection object). -/
theorem projection_collapse (r : Option JsonVal) (j : List (String × JsonVal))
    (ks : List JsonKey) (h : ks ≠ []) :
    FutureV.get_origin (applyKeys (.base r j) ks) = .base r j
    ∧ FutureV.to_json (applyKeys (.base r j) ks) =
        setKey j "__key__" (.arr (ks.map key_to_json)) := by
  constructor
  · rw [get_origin_applyKeys]
    rfl
  · obtain ⟨t, k, heq⟩ := exists_mapped_applyKeys (.base r j) ks h
    rw [heq]
    show setKey (FutureV.base_ref (FutureV.get_origin (.mapped t k))) "__key__"
      (.arr ((FutureV.get_args (.mapped t k)).map key_to_json)) = _
    rw [← heq, get_origin_applyKeys, get_args_applyKeys]
    simp [FutureV.get_origin, FutureV.base_ref, FutureV.get_args, FutureV.get_args_rev]

/-- C5 witness: a two-step chain over a base future whose reference dict
already has a field; the result is that dict plus `__key__ = ["a", 0]`. -/
theorem projection_collapse_witness :
    FutureV.get_origin
        (applyKeys (.base none [("__task__", .str "T")]) [.str "a", .int 0])
      = .base none [("__task__", .str "T")]
    ∧ FutureV.to_json (applyKeys (.base none [("__task__", .str "T")]) [.str "a", .int 0]) =
        setKey [("__task__", .str "T")] "__key__"
          (.arr ([JsonKey.str "a", JsonKey.int 0].map key_to_json)) :=
  projection_collapse none [("__task__", .str "T")] [.str "a", .int 0] (by simp)

/-- C6: Const literalness.  `Const(v)` construction fails iff the
`eval(repr(v))` round trip (abstracted as `evalRepr`, `none` modelling a
raised exception) does not return a value equal to `v`; on success both
`run_task` and `get_task_result` return `v`. -/
theorem const_literalness {α : Type} [DecidableEq α] (evalRepr : α → Option α) (v : α) :
    (mkConst evalRepr v = none ↔ ¬ evalRepr v = some v)
    ∧ ∀ c, mkConst evalRepr v = some c →
        Const.run_task c = v ∧ Const.get_task_result c = v := by
  constructor
  · unfold mkConst check_if_literal
    cases h : evalRepr v with
    | none => simp
    | some xx =>
      by_cases hv : v = xx
      · subst hv
        simp
      · simp [hv]
        exact fun he => hv he.symm
  · intro c hc
    unfold mkConst at hc
    by_cases h : check_if_literal evalRepr v
    · rw [if_pos h] at hc
      obtain rfl : Const.mk v = c := (Option.some.injEq _ _).mp hc
      exact ⟨rfl, rfl⟩
    · rw [if_neg h] at hc
      cases hc

/-- C6 witness: with the identity round trip, `Const 3` is constructed and
returns `3`; with a round trip that always raises, construction fails. -/
theorem const_literalness_witness :
    mkConst (fun _ : Nat => none) 5 = none
    ∧ Const.run_task (⟨3⟩ : Const Nat) = 3 ∧ Const.get_task_result (⟨3⟩ : Const Nat) = 3 :=
  ⟨(const_literalness (fun _ : Nat => none) 5).1.mpr (by simp),
   (const_literalness (fun n : Nat => some n) 3).2 ⟨3⟩ (by decide)⟩

theorem length_args_path (b : FsPath) (i : Nat) : (args_path b i).length = b.length + 2 := by
  simp [args_path, instPath]

theorem length_data_dir (b : FsPath) (i : Nat) : (data_dir b i).length = b.length + 2 := by
  simp [data_dir, instPath]

theorem length_deps_dir (b : FsPath) (i : Nat) : (deps_dir b i).length = b.length + 2 := by
  simp [deps_dir, instPath]

/-- C7: `InstanceDirectory.initialize`.  If the instance path exists it is
removed and recreated (so nothing except the freshly created entries
survives below it); afterwards `args.json` holds exactly the fingerprint,
`data/` and `deps/` exist, and `deps/` holds the `__NO_DEPENDENCIES__`
sentinel file iff the dependency map is empty, else one link per dependency
name pointing at the resolved upstream directory.  `hclean` states that the
input filesystem is a real one: entries below a non-existent directory do
not occur; `hnames` states dict-key uniqueness of the dependency names. -/
theorem instance_initialize_spec (resolve : FsPath → FsPath) (now : Nat) (fs : FS)
    (b : FsPath) (i : Nat) (argkey : String) (deps : List (String × FsPath))
    (hnames : (deps.map Prod.fst).Nodup)
    (hclean : pathExists fs (instPath b i) = true
      ∨ ∀ q, pathPref (instPath b i) q = true → fsLookup fs q = none) :
    fsLookup (initDir resolve now fs b i argkey deps) (instPath b i) = some .dir
    ∧ fsLookup (initDir resolve now fs b i argkey deps) (args_path b i)
        = some (.file argkey now)
    ∧ fsLookup (initDir resolve now fs b i argkey deps) (data_dir b i) = some .dir
    ∧ fsLookup (initDir resolve now fs b i argkey deps) (deps_dir b i) = some .dir
    ∧ (fsLookup (initDir resolve now fs b i argkey deps)
          (deps_dir b i ++ ["__NO_DEPENDENCIES__"]) = some (.file "" now) ↔ deps = [])
    ∧ (∀ n t, (n, t) ∈ deps →
        fsLookup (initDir resolve now fs b i argkey deps) (deps_dir b i ++ [n])
          = some (.symlink (resolve t)))
    ∧ (∀ q, pathPref (instPath b i) q = true → q ∉ created_paths b i deps →
        fsLookup (initDir resolve now fs b i argkey deps) q = none) := by
  have hcore := coreFS_lookup now fs b i argkey hclean
  cases deps with
  | nil =>
    rw [initDir_nil]
    have h1 : instPath b i ≠ deps_dir b i ++ ["__NO_DEPENDENCIES__"] :=
      ne_of_length_ne (by rw [length_instPath, length_deps_sub]; omega)
    have h2 : args_path b i ≠ deps_dir b i ++ ["__NO_DEPENDENCIES__"] :=
      ne_of_length_ne (by rw [length_args_path, length_deps_sub]; omega)
    have h3 : data_dir b i ≠ deps_dir b i ++ ["__NO_DEPENDENCIES__"] :=
      ne_of_length_ne (by rw [length_data_dir, length_deps_sub]; omega)
    have h4 : deps_dir b i ≠ deps_dir b i ++ ["__NO_DEPENDENCIES__"] :=
      ne_of_length_ne (by rw [length_deps_dir, length_deps_sub]; omega)
    refine ⟨?_, ?_, ?_, ?_, ?_, ?_, ?_⟩
    · rw [fsLookup_fsSet_ne _ _ h1]
      exact hcore.1
    · rw [fsLookup_fsSet_ne _ _ h2]
      exact hcore.2.1
    · rw [fsLookup_fsSet_ne _ _ h3]
      exact hcore.2.2.1
    · rw [fsLookup_fsSet_ne _ _ h4]
      exact hcore.2.2.2.1
    · rw [fsLookup_fsSet_self]
      simp
    · intro n t hmem
      simp at hmem
    · intro q hq hnc
      simp only [created_paths, List.mem_append, List.mem_cons, List.mem_singleton,
        List.not_mem_nil, not_or] at hnc
      obtain ⟨⟨hq1, hq2, hq3, hq4, -⟩, hq5, -⟩ := hnc
      rw [fsLookup_fsSet_ne _ _ hq5]
      exact hcore.2.2.2.2 q hq hq1 hq2 hq3 hq4
  | cons d ds =>
    rw [initDir_cons]
    have hnotin : ∀ (q : FsPath), q.length < b.length + 3 →
        q ∉ (d :: ds).map (fun nt => deps_dir b i ++ [nt.1]) := by
      intro q hlt hin
      obtain ⟨nt, -, heq⟩ := List.mem_map.mp hin
      rw [← heq, length_deps_sub] at hlt
      omega
    refine ⟨?_, ?_, ?_, ?_, ?_, ?_, ?_⟩
    · rw [foldDeps_frame resolve b i _ _ (hnotin _ (by rw [length_instPath]; omega))]
      exact hcore.1
    · rw [foldDeps_frame resolve b i _ _ (hnotin _ (by rw [length_args_path]; omega))]
      exact hcore.2.1
    · rw [foldDeps_frame resolve b i _ _ (hnotin _ (by rw [length_data_dir]; omega))]
      exact hcore.2.2.1
    · rw [foldDeps_frame resolve b i _ _ (hnotin _ (by rw [length_deps_dir]; omega))]
      exact hcore.2.2.2.1
    · constructor
      · intro hfile
        rcases foldDeps_lookup_cases resolve b i (d :: ds) (coreFS now fs b i argkey)
            (deps_dir b i ++ ["__NO_DEPENDENCIES__"]) with hcase | ⟨t, hcase⟩
        · rw [hcase] at hfile
          have hnone := hcore.2.2.2.2 _ (pathPref_deps_sub b i "__NO_DEPENDENCIES__")
            (ne_of_length_ne (by rw [length_deps_sub, length_instPath]; omega))
            (ne_of_length_ne (by rw [length_deps_sub, length_args_path]; omega))
            (ne_of_length_ne (by rw [length_deps_sub, length_data_dir]; omega))
            (ne_of_length_ne (by rw [length_deps_sub, length_deps_dir]; omega))
          rw [hnone] at hfile
          cases hfile
        · rw [hcase] at hfile
          simp at hfile
      · intro h
        simp at h
    · intro n t hmem
      exact foldDeps_mem resolve b i hnames _ hmem
    · intro q hq hnc
      have hq1 : q ≠ instPath b i :=
        fun he => hnc (List.mem_append.mpr (Or.inl (by rw [he]; simp)))
      have hq2 : q ≠ args_path b i :=
        fun he => hnc (List.mem_append.mpr (Or.inl (by rw [he]; simp)))
      have hq3 : q ≠ data_dir b i :=
        fun he => hnc (List.mem_append.mpr (Or.inl (by rw [he]; simp)))
      have hq4 : q ≠ deps_dir b i :=
        fun he => hnc (List.mem_append.mpr (Or.inl (by rw [he]; simp)))
      have hqmap : q ∉ (d :: ds).map (fun nt => deps_dir b i ++ [nt.1]) :=
        fun he => hnc (List.mem_append.mpr (Or.inr he))
      rw [foldDeps_frame resolve b i _ _ hqmap]
      exact hcore.2.2.2.2 q hq hq1 hq2 hq3 hq4

/-- A filesystem with a pre-existing instance directory holding a stale
result file, used to exercise `initialize` on an existing path. -/
def demoFS7 : FS :=
  [(["cache", "0"], .dir), (["cache", "0", "result.pkl.gz"], .file "old" 3)]

/-- C7 witness: initializing instance 0 with one dependency on an existing
directory writes the fingerprint, links the dependency, and removes the
stale result file. -/
theorem instance_initialize_spec_witness :
    fsLookup (initDir id 7 demoFS7 ["cache"] 0 "K" [("up", ["cache", "1"])])
        (args_path ["cache"] 0) = some (.file "K" 7)
    ∧ fsLookup (initDir id 7 demoFS7 ["cache"] 0 "K" [("up", ["cache", "1"])])
        (deps_dir ["cache"] 0 ++ ["up"]) = some (.symlink ["cache", "1"])
    ∧ fsLookup (initDir id 7 demoFS7 ["cache"] 0 "K" [("up", ["cache", "1"])])
        ["cache", "0", "result.pkl.gz"] = none := by
  have h := instance_initialize_spec id 7 demoFS7 ["cache"] 0 "K" [("up", ["cache", "1"])]
    (by decide) (Or.inl (by decide))
  exact ⟨h.2.1, h.2.2.2.2.2.1 "up" ["cache", "1"] (by decide),
    h.2.2.2.2.2.2 ["cache", "0", "result.pkl.gz"] (by decide) (by decide)⟩

/-- C8 (counterexample): the claim fails as stated: the result, stdout and
stderr files of instance 0 are named `result.pkl.gz`, `stdout.txt` and
`stderr.txt`, not `result`, `stdout` and `stderr`. -/
theorem result_filename_counterexample :
    result_path [] 0 = ["0", "result.pkl.gz"]
    ∧ result_path [] 0 ≠ ["0", "result"]
    ∧ stdout_path [] 0 ≠ ["0", "stdout"]
    ∧ stderr_path [] 0 ≠ ["0", "stderr"] := by decide

/-- C8 (amended): the last result is stored in a file named exactly
`result.pkl.gz` directly under the instance path (written by `save_result`
and read back by `load_result`), and the captured standard output and
standard error in files named exactly `stdout.txt` and `stderr.txt`. -/
theorem result_paths_spec (fs : FS) (b : FsPath) (i : Nat) (c : String) (now : Nat) :
    result_path b i = instPath b i ++ ["result.pkl.gz"]
    ∧ stdout_path b i = instPath b i ++ ["stdout.txt"]
    ∧ stderr_path b i = instPath b i ++ ["stderr.txt"]
    ∧ load_result (save_result fs b i c now) b i = some c := by
  refine ⟨rfl, rfl, rfl, ?_⟩
  unfold load_result save_result
  rw [fsLookup_fsSet_self]

/-- C9: constructing an `InstanceDirectory` for an existing path performs
no initialization at all (the filesystem is returned unchanged, so
`args.json`, the result file, `data/` and `deps/` are untouched);
initialization happens exactly when the path does not yet exist. -/
theorem instance_init_frame (resolve : FsPath → FsPath) (now : Nat) (fs : FS) (b : FsPath)
    (i : Nat) (argkey : String) (deps : List (String × FsPath)) :
    (pathExists fs (instPath b i) = true →
      mkInstanceDirectory resolve now fs b i argkey deps = fs)
    ∧ (pathExists fs (instPath b i) = false →
      mkInstanceDirectory resolve now fs b i argkey deps
        = initDir resolve now fs b i argkey deps) := by
  unfold mkInstanceDirectory
  constructor
  · intro h
    rw [if_pos h]
  · intro h
    have h' : ¬ pathExists fs (instPath b i) = true := by
      rw [h]
      simp
    rw [if_neg h']

/-- C9 witness: with the instance directory present the constructor leaves
the filesystem untouched; on an empty filesystem it initializes. -/
theorem instance_init_frame_witness :
    mkInstanceDirectory id 0 [(["b", "0"], FSEntry.dir)] ["b"] 0 "K" []
      = [(["b", "0"], FSEntry.dir)]
    ∧ mkInstanceDirectory id 0 [] ["b"] 0 "K" [] = initDir id 0 [] ["b"] 0 "K" [] :=
  ⟨(instance_init_frame id 0 [(["b", "0"], FSEntry.dir)] ["b"] 0 "K" []).1 (by decide),
   (instance_init_frame id 0 [] ["b"] 0 "K" []).2 (by decide)⟩

theorem database_clear_fs (d : Database) :
    d.clear.fs = fsSet
      (if pathExists d.fs d.results_directory then rmtree d.fs d.results_directory else d.fs)
      d.results_directory FSEntry.dir := rfl

/-- C10: `Database.clear` clears the id table and removes and recreates
`results/` (nothing survives strictly below it), but leaves `source.txt`
untouched: its filesystem entry — content and mtime — is identical before
and after.  `hclean` rules out entries below a non-existent `results/`. -/
theorem database_clear_frame (d : Database)
    (hclean : pathExists d.fs d.results_directory = true
      ∨ ∀ q, pathPref d.results_directory q = true → fsLookup d.fs q = none) :
    fsLookup d.clear.fs d.source_path = fsLookup d.fs d.source_path
    ∧ d.clear.id_table.table = []
    ∧ fsLookup d.clear.fs d.results_directory = some .dir
    ∧ ∀ q, pathPref d.results_directory q = true → q ≠ d.results_directory →
        fsLookup d.clear.fs q = none := by
  have hsr : d.source_path ≠ d.results_directory :=
    append_singleton_ne_of_ne _ (by decide)
  have hpref : pathPref d.results_directory d.source_path = false := by
    show pathPref (d.base_path ++ ["results"]) (d.base_path ++ ["source.txt"]) = false
    rw [pathPref_cancel]
    decide
  refine ⟨?_, rfl, ?_, ?_⟩
  · rw [database_clear_fs, fsLookup_fsSet_ne _ _ hsr]
    by_cases he : pathExists d.fs d.results_directory
    · rw [if_pos he]
      exact fsLookup_rmtree_of_not_pref _ hpref
    · rw [if_neg he]
  · rw [database_clear_fs]
    exact fsLookup_fsSet_self _ _ _
  · intro q hq hne
    rw [database_clear_fs, fsLookup_fsSet_ne _ _ hne]
    by_cases he : pathExists d.fs d.results_directory
    · rw [if_pos he]
      exact fsLookup_rmtree_of_pref _ hq
    · rw [if_neg he]
      rcases hclean with hc | hc
      · exact absurd hc he
      · exact hc q hq

/-- A database with a source file, an id-table entry and one instance
directory under `results/`. -/
def demoDB : Database :=
  ⟨["b"], ⟨[("k", 0)], [("k", 0)]⟩,
   [(["b", "source.txt"], .file "src" 5), (["b", "results"], .dir),
    (["b", "results", "0"], .dir)]⟩

/-- C10 witness: clearing `demoDB` keeps `source.txt` (content `"src"`,
mtime `5`), empties the id table, recreates `results/` empty. -/
theorem database_clear_frame_witness :
    fsLookup (Database.clear demoDB).fs (Database.source_path demoDB)
      = some (.file "src" 5)
    ∧ (Database.clear demoDB).id_table.table = []
    ∧ fsLookup (Database.clear demoDB).fs (Database.results_directory demoDB) = some .dir
    ∧ fsLookup (Database.clear demoDB).fs ["b", "results", "0"] = none := by
  have h := database_clear_frame demoDB (Or.inl (by decide))
  refine ⟨?_, h.2.1, h.2.2.1, h.2.2.2 ["b", "results", "0"] (by decide) (by decide)⟩
  rw [h.1]
  rfl

end Taskproc
